import Mathlib

/-!
Verification of the OpenFilamentSensor offline telemetry tooling.

Shallow embedding of the two generator scripts:
* tools/gcode_flow_sim.py - G-code extrusion extractor, sample chunker,
  status-frame builder and websocket replay loop;
* tools/extract_log_data.py - debug-log flow-line extractor.

Python floats are modelled as rationals, Python ints as integers
(list indices and lengths as naturals where the call sites guarantee it),
regex searches as explicit scanning functions, and the chunker's inner
while loop as a fuel-indexed iteration whose stabilisation expresses
termination of the source loop.
-/

namespace OFS

/-- Tolerance 1e-6 used by both the chunker loop and the delta filter. -/
def eps : ℚ := 1 / 1000000

/-! ## Sample chunker: tools/gcode_flow_sim.py, chunk_extrusion -/

/-- Sign selector of chunk_extrusion: `1 if delta > 0 else -1`. -/
def targetSign (d : ℚ) : ℚ := if 0 < d then 1 else -1

/-- Fuel-indexed unfolding of the inner while loop of chunk_extrusion:
`while remaining > 1e-6: chunk = min(max_chunk_mm, remaining);
chunk *= target_sign; remaining -= abs(chunk); yield chunk`.
The fuel only bounds the number of iterations; the source loop has no
such bound, so its termination is expressed by `chunkLoopStabilizes`. -/
def chunkLoopF : ℕ → ℚ → ℚ → ℚ → List ℚ
  | 0, _, _, _ => []
  | n + 1, maxChunk, sgn, remaining =>
    if eps < remaining then
      let signed := sgn * min maxChunk remaining
      signed :: chunkLoopF n maxChunk sgn (remaining - |signed|)
    else []

/-- The source's while loop terminates at this state iff some fuel is a
fixed point: past it, more fuel adds no further iterations. -/
def chunkLoopStabilizes (maxChunk sgn remaining : ℚ) : Prop :=
  ∃ n, ∀ k, n ≤ k → chunkLoopF k maxChunk sgn remaining = chunkLoopF n maxChunk sgn remaining

/-- Ceiling of a rational as a natural number (0 for non-positive input),
computed directly from the numerator and denominator so that it reduces
in the kernel. -/
def ratCeilNat (q : ℚ) : ℕ := (q.num.toNat + q.den - 1) / q.den

/-- Fuel sufficient for the loop whenever `maxChunk ≠ 0`. -/
def chunkFuel (maxChunk remaining : ℚ) : ℕ := ratCeilNat (remaining / |maxChunk|) + 1

/-- The chunk list produced for one delta by the inner loop of
chunk_extrusion (runs the loop with sufficient fuel). -/
def chunkDelta (maxChunk sgn remaining : ℚ) : List ℚ :=
  chunkLoopF (chunkFuel maxChunk remaining) maxChunk sgn remaining

/-- Per-chunk bookkeeping of chunk_extrusion: `total += chunk;
yield timestamp, chunk, total; timestamp += interval_ms`.  Returns the
emitted samples together with the final timestamp and total. -/
def emitSamples (interval : ℤ) : ℤ → ℚ → List ℚ → List (ℤ × ℚ × ℚ) × ℤ × ℚ
  | _ts, total, [] => ([], _ts, total)
  | ts, total, c :: cs =>
    let rest := emitSamples interval (ts + interval) (total + c) cs
    ((ts, c, total + c) :: rest.1, rest.2)

/-- Outer loop of chunk_extrusion over the delta sequence, carrying the
timestamp and total accumulators. -/
def chunkExtrusionAux (interval : ℤ) (maxChunk : ℚ) (includeRetractions : Bool) :
    ℤ → ℚ → List ℚ → List (ℤ × ℚ × ℚ)
  | _, _, [] => []
  | ts, total, d :: ds =>
    if targetSign d < 0 ∧ includeRetractions = false then
      chunkExtrusionAux interval maxChunk includeRetractions (ts + interval) total ds
    else
      let p := emitSamples interval ts total (chunkDelta maxChunk (targetSign d) |d|)
      p.1 ++ chunkExtrusionAux interval maxChunk includeRetractions p.2.1 p.2.2 ds

/-- chunk_extrusion: timestamp and total both start at zero. -/
def chunk_extrusion (deltas : List ℚ) (interval_ms : ℤ) (max_chunk_mm : ℚ)
    (include_retractions : Bool) : List (ℤ × ℚ × ℚ) :=
  chunkExtrusionAux interval_ms max_chunk_mm include_retractions 0 0 deltas

/-! ## Lemmas about the chunker loop -/

theorem eps_pos : (0 : ℚ) < eps := by norm_num [eps]

theorem targetSign_cases (d : ℚ) : targetSign d = 1 ∨ targetSign d = -1 := by
  unfold targetSign
  split <;> simp

/-- Every chunk the loop emits has magnitude at most the ceiling and
carries the selected sign. -/
theorem chunkLoopF_mem (n : ℕ) (m s : ℚ) (hm : 0 < m) (hs : s = 1 ∨ s = -1) :
    ∀ r, ∀ c ∈ chunkLoopF n m s r, |c| ≤ m ∧ s * c = |c| := by
  induction n with
  | zero => intro r c hc; simp [chunkLoopF] at hc
  | succ n ih =>
    intro r c hc
    rw [chunkLoopF] at hc
    by_cases h : eps < r
    · simp only [if_pos h, List.mem_cons] at hc
      rcases hc with hc | hc
      · subst hc
        have hr0 : (0 : ℚ) < r := lt_trans eps_pos h
        have hmin : 0 < min m r := lt_min hm hr0
        have hs1 : |s| = 1 := by rcases hs with hs | hs <;> simp [hs]
        have habs : |s * min m r| = min m r := by
          rw [abs_mul, hs1, one_mul, abs_of_pos hmin]
        constructor
        · rw [habs]; exact min_le_left m r
        · rw [habs]
          rcases hs with hs | hs <;> subst hs <;> ring
      · exact ih _ c hc
    · simp [if_neg h] at hc

/-- With enough fuel, the magnitudes of the emitted chunks sum to the
initial remaining value up to the 1e-6 loop cut-off. -/
theorem chunkLoopF_magSum (n : ℕ) (m s : ℚ) (hm : 0 < m) (hs : s = 1 ∨ s = -1) :
    ∀ r, 0 ≤ r → r ≤ n * m + eps →
      r - eps ≤ ((chunkLoopF n m s r).map (fun c => |c|)).sum ∧
        ((chunkLoopF n m s r).map (fun c => |c|)).sum ≤ r := by
  induction n with
  | zero =>
    intro r hr hfuel
    simp only [chunkLoopF, List.map_nil, List.sum_nil]
    constructor
    · simp at hfuel; linarith
    · exact hr
  | succ n ih =>
    intro r hr hfuel
    rw [chunkLoopF]
    by_cases h : eps < r
    · simp only [if_pos h, List.map_cons, List.sum_cons]
      have hr0 : (0 : ℚ) < r := lt_trans eps_pos h
      have hmin : 0 < min m r := lt_min hm hr0
      have hs1 : |s| = 1 := by rcases hs with hs | hs <;> simp [hs]
      have habs : |s * min m r| = min m r := by
        rw [abs_mul, hs1, one_mul, abs_of_pos hmin]
      rw [habs]
      have hrec := ih (r - |s * min m r|)
      rw [habs] at hrec
      have h1 : 0 ≤ r - min m r := by
        have := min_le_right m r; linarith
      have h2 : r - min m r ≤ n * m + eps := by
        have heps := eps_pos
        rcases le_or_lt m r with hmr | hmr
        · rw [min_eq_left hmr]
          push_cast [Nat.cast_succ] at hfuel
          linarith
        · rw [min_eq_right (le_of_lt hmr)]
          have hnm : (0 : ℚ) ≤ n * m := by positivity
          linarith
      obtain ⟨hlo, hhi⟩ := hrec h1 h2
      constructor <;> linarith
    · simp only [if_neg h, List.map_nil, List.sum_nil]
      push_neg at h
      constructor <;> linarith

/-- Once the fuel covers the remaining quantity, adding more fuel does not
change the output: this is the termination of the source's while loop. -/
theorem chunkLoopF_stable (n : ℕ) (m s : ℚ) (hm : m ≠ 0) (hs : s = 1 ∨ s = -1) :
    ∀ r, r ≤ n * |m| + eps → ∀ j, chunkLoopF (n + j) m s r = chunkLoopF n m s r := by
  induction n with
  | zero =>
    intro r hfuel j
    have hr : ¬ eps < r := by simp at hfuel; linarith
    cases j with
    | zero => rfl
    | succ j => rw [Nat.zero_add]; simp only [chunkLoopF, if_neg hr]
  | succ n ih =>
    intro r hfuel j
    have hstep : n + 1 + j = (n + j) + 1 := by omega
    rw [hstep, chunkLoopF, chunkLoopF]
    by_cases h : eps < r
    · simp only [if_pos h]
      congr 1
      apply ih
      have hr0 : (0 : ℚ) < r := lt_trans eps_pos h
      have hs1 : |s| = 1 := by rcases hs with hs | hs <;> simp [hs]
      have habs : |s * min m r| = |min m r| := by
        rw [abs_mul, hs1, one_mul]
      rw [habs]
      have heps := eps_pos
      rcases le_or_lt m r with hmr | hmr
      · rw [min_eq_left hmr]
        push_cast [Nat.cast_succ] at hfuel
        linarith
      · have hm0 : 0 < m := lt_trans hr0 hmr
        rw [min_eq_right (le_of_lt hmr), abs_of_pos hr0]
        have hnm : (0 : ℚ) ≤ n * |m| := by positivity
        linarith
    · simp only [if_neg h]

/-- The computable ceiling bounds its argument from above. -/
theorem le_ratCeilNat (q : ℚ) : q ≤ (ratCeilNat q : ℚ) := by
  rcases le_or_lt q 0 with hq | hq
  · exact le_trans hq (by positivity)
  · have hnum : 0 < q.num := Rat.num_pos.mpr hq
    have hd : 0 < q.den := q.pos
    have h1 := Nat.div_add_mod (q.num.toNat + q.den - 1) q.den
    have h2 : (q.num.toNat + q.den - 1) % q.den < q.den := Nat.mod_lt _ hd
    have h3 : q.num.toNat ≤ q.den * ((q.num.toNat + q.den - 1) / q.den) := by omega
    have hra : ratCeilNat q = (q.num.toNat + q.den - 1) / q.den := rfl
    have key : (q.num : ℚ) ≤ (ratCeilNat q : ℚ) * (q.den : ℚ) := by
      have hnum_a : (q.num : ℚ) = ((q.num.toNat : ℕ) : ℚ) := by
        exact_mod_cast (Int.toNat_of_nonneg (le_of_lt hnum)).symm
      rw [hnum_a, hra]
      have h4 : (q.num.toNat : ℚ) ≤ ((q.den * ((q.num.toNat + q.den - 1) / q.den) : ℕ) : ℚ) := by
        exact_mod_cast h3
      push_cast at h4 ⊢
      linarith
    calc q = (q.num : ℚ) / (q.den : ℚ) := (Rat.num_div_den q).symm
      _ ≤ (ratCeilNat q : ℚ) := by
          rw [div_le_iff₀ (by exact_mod_cast hd)]
          exact key

/-- The baked-in fuel is sufficient whenever the ceiling is nonzero. -/
theorem chunkFuel_sufficient (m r : ℚ) (hm : m ≠ 0) (hr : 0 ≤ r) :
    r ≤ (chunkFuel m r : ℚ) * |m| + eps := by
  have habs : (0 : ℚ) < |m| := abs_pos.mpr hm
  have h1 : r / |m| ≤ (ratCeilNat (r / |m|) : ℚ) := le_ratCeilNat _
  have h2 : r ≤ (ratCeilNat (r / |m|) : ℚ) * |m| := by
    rw [div_le_iff habs] at h1; linarith
  unfold chunkFuel
  push_cast
  nlinarith [le_of_lt eps_pos, le_of_lt habs]

/-- Any fuel at least the baked-in one produces the same chunk list. -/
theorem chunkLoopF_eq_chunkDelta (m s r : ℚ) (hm : m ≠ 0) (hs : s = 1 ∨ s = -1)
    (hr : 0 ≤ r) (k : ℕ) (hk : chunkFuel m r ≤ k) :
    chunkLoopF k m s r = chunkDelta m s r := by
  obtain ⟨j, hj⟩ := Nat.exists_eq_add_of_le hk
  rw [hj]
  exact chunkLoopF_stable (chunkFuel m r) m s hm hs r (chunkFuel_sufficient m r hm hr) j

/-- The emitted samples advance the timestamp by exactly one interval per
sub-chunk: the k-th sample of a run starting at ts is stamped ts + k*i. -/
theorem emitSamples_timestamps (i : ℤ) (cs : List ℚ) : ∀ (ts : ℤ) (t : ℚ),
    (emitSamples i ts t cs).1.map Prod.fst =
      (List.range cs.length).map (fun (k : ℕ) => ts + (k : ℤ) * i) := by
  induction cs with
  | nil => intro ts t; simp [emitSamples]
  | cons c cs ih =>
    intro ts t
    simp only [emitSamples, List.map_cons, List.length_cons, List.range_succ_eq_map,
      List.map_map]
    rw [ih (ts + i) (t + c)]
    congr 1
    · simp
    · apply List.map_congr_left
      intro k _
      simp only [Function.comp_apply]
      push_cast
      ring

/-- The loop with ceiling 0 and a unit remaining emits one chunk per unit
of fuel: the source loop would iterate forever. -/
theorem chunkLoopF_zero_ceiling_length (k : ℕ) : (chunkLoopF k 0 1 1).length = k := by
  induction k with
  | zero => rfl
  | succ k ih =>
    rw [chunkLoopF]
    have h : eps < (1 : ℚ) := by norm_num [eps]
    rw [if_pos h]
    show (1 * min 0 1 :: chunkLoopF k 0 1 (1 - |1 * min 0 1|)).length = k + 1
    have harg : (1 : ℚ) - |1 * min 0 1| = 1 := by
      rw [min_eq_left (by norm_num : (0 : ℚ) ≤ 1)]
      norm_num
    rw [List.length_cons, harg, ih]

/-! ## Claim theorems about the chunker -/

/-- C1: for max_chunk_mm > 0, chunk_extrusion decomposes a delta d into
sub-chunks of magnitude at most max_chunk_mm, each carrying the sign of d,
whose magnitudes sum to |d| within 1e-6; each sub-chunk is emitted on its
own tick (timestamps advance by one interval per sample); and the delta
7.5 with max_chunk_mm = 3.0 yields sub-chunks 3.0, 3.0, 1.5 on ticks
0, 250, 500 with running totals 3.0, 6.0, 7.5. -/
theorem C1_chunk_decomposition (m d : ℚ) (hm : 0 < m) :
    (∀ c ∈ chunkDelta m (targetSign d) |d|, |c| ≤ m ∧ targetSign d * c = |c|) ∧
    |d| - eps ≤ ((chunkDelta m (targetSign d) |d|).map (fun c => |c|)).sum ∧
    ((chunkDelta m (targetSign d) |d|).map (fun c => |c|)).sum ≤ |d| ∧
    (∀ (i ts : ℤ) (t : ℚ) (cs : List ℚ),
      (emitSamples i ts t cs).1.map Prod.fst =
        (List.range cs.length).map (fun (k : ℕ) => ts + (k : ℤ) * i)) ∧
    chunk_extrusion [15/2] 250 3 false = [(0, 3, 3), (250, 3, 6), (500, 3/2, 15/2)] := by
  have hfuel : |d| ≤ (chunkFuel m |d| : ℚ) * m + eps := by
    have := chunkFuel_sufficient m |d| (ne_of_gt hm) (abs_nonneg d)
    rwa [abs_of_pos hm] at this
  have hsum := chunkLoopF_magSum (chunkFuel m |d|) m (targetSign d) hm
    (targetSign_cases d) |d| (abs_nonneg d) hfuel
  refine ⟨?_, hsum.1, hsum.2, fun i ts t cs => emitSamples_timestamps i cs ts t, ?_⟩
  · exact chunkLoopF_mem (chunkFuel m |d|) m (targetSign d) hm (targetSign_cases d) |d|
  · with_unfolding_all rfl

/-- C1 witness: the decomposition properties instantiated at
max_chunk_mm = 3 and delta = 7.5. -/
theorem C1_chunk_decomposition_witness :
    (0 : ℚ) < 3 ∧
    (((chunkDelta 3 (targetSign (15/2)) |(15/2 : ℚ)|).map (fun c => |c|)).sum ≤
      |(15/2 : ℚ)|) :=
  ⟨by norm_num, (C1_chunk_decomposition 3 (15/2) (by norm_num)).2.2.1⟩

/-- C4 counterexample: with max_chunk_mm = 0 and the single positive delta
1 the inner loop of chunk_extrusion never stabilises, so a finite input
produces an unending sample stream — the claim fails for that choice of
max_chunk_mm. -/
theorem C4_termination_counterexample : ¬ chunkLoopStabilizes 0 1 1 := by
  rintro ⟨n, hn⟩
  have h := hn (n + 1) (Nat.le_succ n)
  have h1 := chunkLoopF_zero_ceiling_length (n + 1)
  have h2 := chunkLoopF_zero_ceiling_length n
  rw [h] at h1
  omega

/-- C4 (amended): provided max_chunk_mm is nonzero, the inner loop of
chunk_extrusion stabilises for every delta, so a finite delta list yields
a finite (list-valued) sample sequence; at max_chunk_mm = 0 this fails. -/
theorem C4_termination_amended (m d : ℚ) (hm : m ≠ 0) :
    chunkLoopStabilizes m (targetSign d) |d| := by
  refine ⟨chunkFuel m |d|, fun k hk => ?_⟩
  rw [chunkLoopF_eq_chunkDelta m (targetSign d) |d| hm (targetSign_cases d)
    (abs_nonneg d) k hk]
  rfl

/-- C4 witness: stabilisation at max_chunk_mm = 3 for the delta 7.5. -/
theorem C4_termination_amended_witness :
    chunkLoopStabilizes 3 (targetSign (15/2)) |(15/2 : ℚ)| :=
  C4_termination_amended 3 (15/2) (by norm_num)

/-- C5: with include_retractions = false, a negative delta emits nothing,
advances the timestamp by exactly one interval and leaves the running
total unchanged. -/
theorem C5_retraction_skip (d : ℚ) (hd : d < 0) (i : ℤ) (m : ℚ) (ts : ℤ) (t : ℚ)
    (ds : List ℚ) :
    chunkExtrusionAux i m false ts t (d :: ds) =
      chunkExtrusionAux i m false (ts + i) t ds := by
  have hsgn : targetSign d < 0 := by
    unfold targetSign
    rw [if_neg (by linarith : ¬ 0 < d)]
    norm_num
  rw [chunkExtrusionAux, if_pos ⟨hsgn, rfl⟩]

/-- C5 witness: the retraction -1 at timestamp 0 with interval 250. -/
theorem C5_retraction_skip_witness :
    chunkExtrusionAux 250 3 false 0 0 [-1] = chunkExtrusionAux 250 3 false (0 + 250) 0 [] :=
  C5_retraction_skip (-1) (by norm_num) 250 3 0 0 []

/-! ## Running totals and timestamp monotonicity (for C2) -/

/-- Sum of the delta_mm components of a sample list. -/
def sumDeltas (L : List (ℤ × ℚ × ℚ)) : ℚ := (L.map (fun x => x.2.1)).sum

/-- Each sample's total_mm is the previous total plus its own delta_mm. -/
def totalsOk : ℚ → List (ℤ × ℚ × ℚ) → Prop
  | _, [] => True
  | t, x :: rest => x.2.2 = t + x.2.1 ∧ totalsOk x.2.2 rest

/-- Timestamps are bounded below by lb and non-decreasing. -/
def tsMono : ℤ → List (ℤ × ℚ × ℚ) → Prop
  | _, [] => True
  | lb, x :: rest => lb ≤ x.1 ∧ tsMono x.1 rest

/-- Timestamp of the last sample, or the bound when there is none. -/
def lastTs (lb : ℤ) : List (ℤ × ℚ × ℚ) → ℤ
  | [] => lb
  | x :: rest => lastTs x.1 rest

theorem sumDeltas_cons (x : ℤ × ℚ × ℚ) (l : List (ℤ × ℚ × ℚ)) :
    sumDeltas (x :: l) = x.2.1 + sumDeltas l := by
  simp [sumDeltas]

theorem totalsOk_append (A B : List (ℤ × ℚ × ℚ)) : ∀ t, totalsOk t A →
    totalsOk (t + sumDeltas A) B → totalsOk t (A ++ B) := by
  induction A with
  | nil =>
    intro t _ hB
    simpa [sumDeltas] using hB
  | cons x A ih =>
    intro t hA hB
    obtain ⟨hx, hA'⟩ := hA
    refine ⟨hx, ?_⟩
    apply ih x.2.2 hA'
    have harr : x.2.2 + sumDeltas A = t + sumDeltas (x :: A) := by
      rw [hx, sumDeltas_cons]; ring
    rwa [harr]

theorem emitSamples_spec (i : ℤ) (cs : List ℚ) : ∀ (ts : ℤ) (t : ℚ),
    totalsOk t (emitSamples i ts t cs).1 ∧
    sumDeltas (emitSamples i ts t cs).1 = cs.sum ∧
    (emitSamples i ts t cs).2.2 = t + cs.sum := by
  induction cs with
  | nil => intro ts t; simp [emitSamples, totalsOk, sumDeltas]
  | cons c cs ih =>
    intro ts t
    obtain ⟨h1, h2, h3⟩ := ih (ts + i) (t + c)
    refine ⟨⟨rfl, h1⟩, ?_, ?_⟩
    · rw [show (emitSamples i ts t (c :: cs)).1 =
          (ts, c, t + c) :: (emitSamples i (ts + i) (t + c) cs).1 from rfl]
      rw [sumDeltas_cons, h2, List.sum_cons]
    · rw [show (emitSamples i ts t (c :: cs)).2.2 =
          (emitSamples i (ts + i) (t + c) cs).2.2 from rfl]
      rw [h3, List.sum_cons]
      ring

theorem chunkExtrusionAux_totalsOk (i : ℤ) (m : ℚ) (incl : Bool) (ds : List ℚ) :
    ∀ (ts : ℤ) (t : ℚ), totalsOk t (chunkExtrusionAux i m incl ts t ds) := by
  induction ds with
  | nil => intro ts t; trivial
  | cons d ds ih =>
    intro ts t
    rw [chunkExtrusionAux]
    by_cases h : targetSign d < 0 ∧ incl = false
    · rw [if_pos h]
      exact ih (ts + i) t
    · rw [if_neg h]
      show totalsOk t
        ((emitSamples i ts t (chunkDelta m (targetSign d) |d|)).1 ++
          chunkExtrusionAux i m incl
            (emitSamples i ts t (chunkDelta m (targetSign d) |d|)).2.1
            (emitSamples i ts t (chunkDelta m (targetSign d) |d|)).2.2 ds)
      obtain ⟨h1, h2, h3⟩ := emitSamples_spec i (chunkDelta m (targetSign d) |d|) ts t
      apply totalsOk_append _ _ t h1
      rw [h2, ← h3]
      exact ih _ _

theorem tsMono_weaken (L : List (ℤ × ℚ × ℚ)) : ∀ lb lb', lb' ≤ lb →
    tsMono lb L → tsMono lb' L := by
  cases L with
  | nil => intro lb lb' _ _; trivial
  | cons x rest => exact fun lb lb' hle h => ⟨le_trans hle h.1, h.2⟩

theorem tsMono_append (A B : List (ℤ × ℚ × ℚ)) : ∀ lb, tsMono lb A →
    tsMono (lastTs lb A) B → tsMono lb (A ++ B) := by
  induction A with
  | nil => intro lb _ hB; exact hB
  | cons x A ih =>
    intro lb hA hB
    exact ⟨hA.1, ih x.1 hA.2 hB⟩

theorem emitSamples_tsMono (i : ℤ) (hi : 0 ≤ i) (cs : List ℚ) :
    ∀ (ts : ℤ) (t : ℚ) (lb : ℤ), lb ≤ ts →
      tsMono lb (emitSamples i ts t cs).1 ∧
        lastTs lb (emitSamples i ts t cs).1 ≤ (emitSamples i ts t cs).2.1 := by
  induction cs with
  | nil => intro ts t lb hlb; exact ⟨trivial, hlb⟩
  | cons c cs ih =>
    intro ts t lb hlb
    obtain ⟨h1, h2⟩ := ih (ts + i) (t + c) ts (by omega)
    exact ⟨⟨hlb, h1⟩, h2⟩

theorem chunkExtrusionAux_tsMono (i : ℤ) (hi : 0 ≤ i) (m : ℚ) (incl : Bool)
    (ds : List ℚ) : ∀ (ts : ℤ) (t : ℚ) (lb : ℤ), lb ≤ ts →
      tsMono lb (chunkExtrusionAux i m incl ts t ds) := by
  induction ds with
  | nil => intro ts t lb _; trivial
  | cons d ds ih =>
    intro ts t lb hlb
    rw [chunkExtrusionAux]
    by_cases h : targetSign d < 0 ∧ incl = false
    · rw [if_pos h]
      exact ih (ts + i) t lb (by omega)
    · rw [if_neg h]
      show tsMono lb
        ((emitSamples i ts t (chunkDelta m (targetSign d) |d|)).1 ++
          chunkExtrusionAux i m incl
            (emitSamples i ts t (chunkDelta m (targetSign d) |d|)).2.1
            (emitSamples i ts t (chunkDelta m (targetSign d) |d|)).2.2 ds)
      obtain ⟨h1, h2⟩ := emitSamples_tsMono i hi (chunkDelta m (targetSign d) |d|) ts t lb hlb
      exact tsMono_append _ _ lb h1 (ih _ _ _ h2)

theorem tsMono_chain' (L : List (ℤ × ℚ × ℚ)) : ∀ lb, tsMono lb L →
    List.Chain' (fun a b : ℤ × ℚ × ℚ => a.1 ≤ b.1) L := by
  induction L with
  | nil => intro lb _; exact List.chain'_nil
  | cons x L ih =>
    intro lb h
    cases L with
    | nil => exact List.chain'_singleton x
    | cons y L' =>
      rw [List.chain'_cons]
      exact ⟨h.2.1, ih x.1 h.2⟩

theorem totalsOk_take (L : List (ℤ × ℚ × ℚ)) : ∀ t, totalsOk t L →
    ∀ n s, (L.take n).getLast? = some s → s.2.2 = t + sumDeltas (L.take n) := by
  induction L with
  | nil =>
    intro t _ n s h
    simp at h
  | cons x L ih =>
    intro t ht n s h
    cases n with
    | zero => simp at h
    | succ n =>
      rw [List.take_succ_cons] at h ⊢
      rcases htake : L.take n with _ | ⟨y, rest⟩
      · rw [htake] at h
        simp at h
        subst h
        simp [sumDeltas, ht.1]
      · rw [htake] at h
        rw [List.getLast?_cons_cons] at h
        have hlast := ih x.2.2 ht.2 n s (by rw [htake]; exact h)
        rw [sumDeltas_cons, hlast, htake, ht.1]
        ring

/-- C2: for every prefix of the chunk_extrusion output, the total_mm of
the last sample of the prefix equals the sum of delta_mm over the prefix,
and (for a non-negative interval) timestamps are non-decreasing. -/
theorem C2_prefix_totals_monotone (ds : List ℚ) (i : ℤ) (m : ℚ) (incl : Bool)
    (hi : 0 ≤ i) :
    (∀ n s, ((chunk_extrusion ds i m incl).take n).getLast? = some s →
        s.2.2 = (((chunk_extrusion ds i m incl).take n).map (fun x => x.2.1)).sum) ∧
    List.Chain' (fun a b : ℤ × ℚ × ℚ => a.1 ≤ b.1) (chunk_extrusion ds i m incl) := by
  constructor
  · intro n s h
    have hinv := totalsOk_take _ 0 (chunkExtrusionAux_totalsOk i m incl ds 0 0) n s h
    rw [hinv]
    simp [sumDeltas, chunk_extrusion]
  · exact tsMono_chain' _ 0 (chunkExtrusionAux_tsMono i hi m incl ds 0 0 0 le_rfl)

/-- C2 witness: monotone timestamps for the 7.5 example at interval 250. -/
theorem C2_prefix_totals_monotone_witness :
    (0 : ℤ) ≤ 250 ∧
    List.Chain' (fun a b : ℤ × ℚ × ℚ => a.1 ≤ b.1) (chunk_extrusion [15/2] 250 3 false) :=
  ⟨by norm_num, (C2_prefix_totals_monotone [15/2] 250 3 false (by norm_num)).2⟩

/-! ## Extrusion extractor: tools/gcode_flow_sim.py, parse_gcode -/

/-- Whitespace as recognised by Python str.strip and str.split. -/
def isPySpace (c : Char) : Bool :=
  c == ' ' || c == '\t' || c == '\n' || c == '\r' || c == '\x0b' || c == '\x0c'

/-- Python str.strip: drop leading and trailing whitespace. -/
def pyStrip (cs : List Char) : List Char :=
  ((cs.dropWhile isPySpace).reverse.dropWhile isPySpace).reverse

/-- Numeric value of a digit run, most significant digit first. -/
def digitsToNat (cs : List Char) : ℕ :=
  cs.foldl (fun acc c => 10 * acc + (c.toNat - 48)) 0

/-- Greedy match of the regex fragment `\d*\.?\d+` at the head of the
input, with Python backtracking semantics: a maximal integer-digit run,
then optionally a dot followed by a nonempty fraction-digit run; a
trailing dot with no fraction digits is given back.  none when not even
one digit can be matched. -/
def matchUnsigned (cs : List Char) : Option ℚ :=
  let d1 := cs.takeWhile Char.isDigit
  match cs.dropWhile Char.isDigit with
  | '.' :: t =>
    let d2 := t.takeWhile Char.isDigit
    if d2 ≠ [] then
      some ((digitsToNat d1 : ℚ) + (digitsToNat d2 : ℚ) / (10 : ℚ) ^ d2.length)
    else if d1 ≠ [] then some (digitsToNat d1) else none
  | _ => if d1 ≠ [] then some (digitsToNat d1) else none

/-- Match `[+-]?\d*\.?\d+` at the head of the input and apply the sign. -/
def matchSignedNumber (cs : List Char) : Option ℚ :=
  match cs with
  | '+' :: t => matchUnsigned t
  | '-' :: t => (matchUnsigned t).map Neg.neg
  | t => matchUnsigned t

/-- re.search of EXTRUSION_RE: leftmost `[Ee]` at which the numeric group
matches; positions where the group fails are skipped, as the regex engine
does. -/
def findEValue : List Char → Option ℚ
  | [] => none
  | c :: rest =>
    if c == 'E' || c == 'e' then
      match matchSignedNumber rest with
      | some v => some v
      | none => findEValue rest
    else findEValue rest

/-- extract_extrusion_value: the float of the first regex match, none when
the regex does not match. -/
def extract_extrusion_value (cs : List Char) : Option ℚ := findEValue cs

/-- The comment-stripped, whitespace-stripped line:
`line.split(";", 1)[0].strip()`. -/
def strippedOf (raw : List Char) : List Char :=
  pyStrip (raw.takeWhile (fun c => c != ';'))

/-- The first whitespace-delimited token of the stripped line:
`stripped.split()[0]`. -/
def commandOf (raw : List Char) : List Char :=
  (strippedOf raw).takeWhile (fun c => !isPySpace c)

/-- One line of parse_gcode: dispatch on the command token, updating the
(absolute_mode, last_e) state and returning the deltas emitted for this
line (empty or a singleton). -/
def lineStep (st : Bool × ℚ) (raw : List Char) : (Bool × ℚ) × List ℚ :=
  if strippedOf raw = [] then (st, [])
  else if commandOf raw = "M82".toList ∨ commandOf raw = "G90".toList then
    ((true, st.2), [])
  else if commandOf raw = "M83".toList ∨ commandOf raw = "G91".toList then
    ((false, st.2), [])
  else if commandOf raw = "G92".toList then
    match extract_extrusion_value (strippedOf raw) with
    | some v => ((st.1, v), [])
    | none => (st, [])
  else if commandOf raw = "G0".toList ∨ commandOf raw = "G1".toList then
    match extract_extrusion_value (strippedOf raw) with
    | none => (st, [])
    | some v =>
      let delta := if st.1 then v - st.2 else v
      let st2 := if st.1 then (st.1, v) else st
      if eps < |delta| then (st2, [delta]) else (st2, [])
  else (st, [])

/-- parse_gcode over a list of raw lines, threading the parse state. -/
def parseGcodeAux : Bool × ℚ → List (List Char) → List ℚ
  | _, [] => []
  | st, l :: ls =>
    let p := lineStep st l
    p.2 ++ parseGcodeAux p.1 ls

/-- parse_gcode: absolute mode on and last_e = 0 initially. -/
def parse_gcode (lines : List (List Char)) : List ℚ :=
  parseGcodeAux (true, 0) lines

/-- C6: a G0/G1 line carrying an extrusion value emits its delta iff the
delta magnitude exceeds 1e-6; in particular two consecutive identical
absolute moves G1 E5 yield exactly one delta. -/
theorem C6_emit_iff_above_eps (mode : Bool) (lastE : ℚ) (raw : List Char) (v : ℚ)
    (hcmd : commandOf raw = "G0".toList ∨ commandOf raw = "G1".toList)
    (hval : extract_extrusion_value (strippedOf raw) = some v) :
    ((lineStep (mode, lastE) raw).2 =
      if eps < |if mode then v - lastE else v| then [if mode then v - lastE else v]
      else []) ∧
    parse_gcode ["G1 E5".toList, "G1 E5".toList] = [5] := by
  constructor
  · have hne : ¬ strippedOf raw = [] := by
      intro h0
      rcases hcmd with hc | hc <;> rw [commandOf, h0] at hc <;>
        exact absurd hc (by decide)
    have hm82 : ¬ (commandOf raw = "M82".toList ∨ commandOf raw = "G90".toList) := by
      rcases hcmd with hc | hc <;> rw [hc] <;> decide
    have hm83 : ¬ (commandOf raw = "M83".toList ∨ commandOf raw = "G91".toList) := by
      rcases hcmd with hc | hc <;> rw [hc] <;> decide
    have hg92 : ¬ commandOf raw = "G92".toList := by
      rcases hcmd with hc | hc <;> rw [hc] <;> decide
    rw [lineStep, if_neg hne, if_neg hm82, if_neg hm83, if_neg hg92, if_pos hcmd, hval]
    cases mode <;> simp only [Bool.false_eq_true, if_false, if_true] <;>
      split <;> simp
  · with_unfolding_all rfl

/-- C6 witness: the suppression condition instantiated on the line
G1 E7.5 in absolute mode with last_e = 0. -/
theorem C6_emit_iff_above_eps_witness :
    ((lineStep (true, 0) "G1 E7.5".toList).2 =
      if eps < |(15/2 : ℚ) - 0| then [(15/2 : ℚ) - 0] else []) ∧
    parse_gcode ["G1 E5".toList, "G1 E5".toList] = [5] := by
  have h := C6_emit_iff_above_eps true 0 "G1 E7.5".toList (15/2)
    (Or.inr (by with_unfolding_all rfl)) (by with_unfolding_all rfl)
  simpa using h

/-! ## Log extractor: tools/extract_log_data.py -/

/-- Character class `[\d.]` of the float-field regexes. -/
def isDigitDot (c : Char) : Bool := c.isDigit || c == '.'

/-- Python substring containment: `pat in line`. -/
def containsSub (pat : List Char) : List Char → Bool
  | [] => pat.isEmpty
  | c :: rest => pat.isPrefixOf (c :: rest) || containsSub pat rest

/-- Does the list start with a character satisfying p? -/
def headIs (p : Char → Bool) : List Char → Bool
  | [] => false
  | c :: _ => p c

/-- re.search of a literal pattern followed by a one-or-more character
class, as in `win_exp=([\d.]+)`: the leftmost position where the literal
is immediately followed by at least one class character; returns the
greedy capture.  Positions where the literal matches but no class
character follows are skipped, as the regex engine does. -/
def findField (pat : List Char) (cls : Char → Bool) : List Char → Option (List Char)
  | [] => none
  | c :: rest =>
    let g := ((c :: rest).drop pat.length).takeWhile cls
    if pat.isPrefixOf (c :: rest) ∧ g ≠ [] then some g
    else findField pat cls rest

/-- Python float() on a capture made of digits and dots: defined when the
string has at least one digit and at most one dot, a ValueError (none)
otherwise. -/
def pyFloat (g : List Char) : Option ℚ :=
  let d1 := g.takeWhile Char.isDigit
  match g.dropWhile Char.isDigit with
  | [] => if d1 ≠ [] then some (digitsToNat d1) else none
  | '.' :: t =>
    if t.all Char.isDigit ∧ (d1 ≠ [] ∨ t ≠ []) then
      some ((digitsToNat d1 : ℚ) + (digitsToNat t : ℚ) / (10 : ℚ) ^ t.length)
    else none
  | _ => none

/-- A float field of parse_flow_line: ok none when the regex does not
match, ok (some v) on a parsed capture, error on a float() ValueError. -/
def getFloatField (pat : List Char) (line : List Char) : Except Unit (Option ℚ) :=
  match findField pat isDigitDot line with
  | none => .ok none
  | some g =>
    match pyFloat g with
    | none => .error ()
    | some v => .ok (some v)

/-- The fields parse_flow_line collects from a valid Flow data line. -/
structure FlowData where
  expected : ℚ
  actual : ℚ
  deficit : Option ℚ
  ratioVal : Option ℚ
  jamState : ℤ
  hardPct : ℚ
  softPct : ℚ
  passVal : ℚ
deriving DecidableEq

/-- The jam=(\d+) field: int() of the capture, defaulting to 0. -/
def jamStateOf (line : List Char) : ℤ :=
  match findField "jam=".toList (fun c => c.isDigit) line with
  | some g => (digitsToNat g : ℤ)
  | none => 0

/-- parse_flow_line: ok none when the line is not a Flow data line (no
marker or a mandatory field missing), error when a matched field value is
rejected by float(), ok (some fields) otherwise. -/
def parse_flow_line (line : List Char) : Except Unit (Option FlowData) :=
  if containsSub "Flow:".toList line then
    match getFloatField "win_exp=".toList line with
    | .error e => .error e
    | .ok none => .ok none
    | .ok (some expected) =>
      match getFloatField "win_sns=".toList line with
      | .error e => .error e
      | .ok none => .ok none
      | .ok (some actual) =>
        match getFloatField "deficit=".toList line with
        | .error e => .error e
        | .ok defOpt =>
          match getFloatField "ratio=".toList line with
          | .error e => .error e
          | .ok ratOpt =>
            match getFloatField "hard=".toList line with
            | .error e => .error e
            | .ok hardOpt =>
              match getFloatField "soft=".toList line with
              | .error e => .error e
              | .ok softOpt =>
                match getFloatField "pass=".toList line with
                | .error e => .error e
                | .ok passOpt =>
                  .ok (some
                    { expected := expected
                      actual := actual
                      deficit := defOpt
                      ratioVal := ratOpt
                      jamState := jamStateOf line
                      hardPct := hardOpt.getD 0
                      softPct := softOpt.getD 0
                      passVal := passOpt.getD (ratOpt.getD 0) })
  else .ok none

/-- extract_timestamp: a leading run of at least ten digits followed by
whitespace, or a bracketed digit run at the very start of the line. -/
def extract_timestamp (line : List Char) : Option ℤ :=
  let d := line.takeWhile Char.isDigit
  if 10 ≤ d.length ∧ headIs isPySpace (line.drop d.length) then
    some (digitsToNat d)
  else
    match line with
    | '[' :: rest =>
      let d2 := rest.takeWhile Char.isDigit
      if d2 ≠ [] ∧ headIs (fun c => c == ']') (rest.drop d2.length) then
        some (digitsToNat d2)
      else none
    | _ => none

/-- One CSV row written by the main loop of extract_log_data. -/
structure CsvRow where
  ts : ℤ
  expectedMM : ℚ
  actualMM : ℚ
  deficitMM : ℚ
  ratioCol : ℚ
  hardPct : ℚ
  softPct : ℚ
  jamState : ℤ
  printStatus : ℤ
deriving DecidableEq

/-- The row written for one valid Flow line: missing optional fields take
their defaults and print_status is the fixed printing code 13. -/
def csvRow (ts : ℤ) (f : FlowData) : CsvRow :=
  ⟨ts, f.expected, f.actual, f.deficit.getD 0, f.passVal, f.hardPct, f.softPct,
    f.jamState, 13⟩

/-- The main loop of extract_log_data: thread last_timestamp through all
lines, emit one row per valid Flow line, propagate a float() error. -/
def extractRows (lastTimestamp : ℤ) : List (List Char) → Except Unit (List CsvRow)
  | [] => .ok []
  | l :: ls =>
    let ts :=
      match extract_timestamp l with
      | some t => t
      | none => lastTimestamp
    match parse_flow_line l with
    | .error e => .error e
    | .ok none => extractRows ts ls
    | .ok (some f) =>
      match extractRows ts ls with
      | .error e => .error e
      | .ok rows => .ok (csvRow ts f :: rows)

/-! ## Claim theorems about the log extractor -/

/-- Any capture returned by a field search is nonempty and consists only
of class characters. -/
theorem findField_chars (pat : List Char) (cls : Char → Bool) :
    ∀ (line g : List Char), findField pat cls line = some g →
      g ≠ [] ∧ g.all cls = true := by
  intro line
  induction line with
  | nil => intro g h; simp [findField] at h
  | cons c rest ih =>
    intro g h
    rw [findField] at h
    by_cases hcond : pat.isPrefixOf (c :: rest) ∧
        ((c :: rest).drop pat.length).takeWhile cls ≠ []
    · rw [if_pos hcond] at h
      obtain rfl : ((c :: rest).drop pat.length).takeWhile cls = g := by
        injection h
      refine ⟨hcond.2, ?_⟩
      rw [List.all_eq_true]
      intro x hx
      exact List.mem_takeWhile_imp hx
    · rw [if_neg hcond] at h
      exact ih g h

/-- A line on which the win_exp regex finds nothing is skipped whole. -/
theorem findField_win_exp_none_skip (line : List Char)
    (h : findField "win_exp=".toList isDigitDot line = none) :
    parse_flow_line line = .ok none := by
  rw [parse_flow_line]
  by_cases hF : containsSub "Flow:".toList line = true
  · rw [if_pos hF]
    have hfield : getFloatField "win_exp=".toList line = .ok none := by
      rw [getFloatField, h]
    rw [hfield]
  · rw [if_neg hF]

/-- A line on which the win_sns regex finds nothing is also skipped
whole, provided win_exp does not itself raise (a malformed win_exp
capture aborts the line before win_sns is consulted). -/
theorem findField_win_sns_none_skip (line : List Char)
    (h : findField "win_sns=".toList isDigitDot line = none)
    (hexp : getFloatField "win_exp=".toList line ≠ .error ()) :
    parse_flow_line line = .ok none := by
  rw [parse_flow_line]
  by_cases hF : containsSub "Flow:".toList line = true
  · rw [if_pos hF]
    have hsns : getFloatField "win_sns=".toList line = .ok none := by
      rw [getFloatField, h]
    cases hexp' : getFloatField "win_exp=".toList line with
    | error e =>
      cases e
      exact absurd hexp' hexp
    | ok expOpt =>
      cases expOpt with
      | none => rfl
      | some expected => rw [hsns]
  · rw [if_neg hF]

/-- C10: the field regexes match only unsigned decimal text — a capture
never contains a minus sign; a minus-signed win_exp or win_sns value
leaves that mandatory field unmatched so the whole line is skipped (shown
generally for each of the two fields and concretely on a minus-signed
win_exp line and a minus-signed win_sns line); and minus-signed optional
fields are treated as absent so their defaults apply. -/
theorem C10_unsigned_fields :
    (∀ (pat : List Char) (cls : Char → Bool) (line g : List Char),
        findField pat cls line = some g → g ≠ [] ∧ g.all cls = true) ∧
    (∀ line : List Char,
        findField "win_exp=".toList isDigitDot line = none →
          parse_flow_line line = .ok none) ∧
    (∀ line : List Char,
        findField "win_sns=".toList isDigitDot line = none →
          getFloatField "win_exp=".toList line ≠ .error () →
          parse_flow_line line = .ok none) ∧
    parse_flow_line "1764214927 Flow: win_exp=-10.00 win_sns=9.50".toList = .ok none ∧
    parse_flow_line "1764214927 Flow: win_exp=10.00 win_sns=-9.50".toList = .ok none ∧
    parse_flow_line
        "Flow: win_exp=10 win_sns=9 deficit=-0.5 ratio=-0.4 jam=-1 hard=-2 soft=-3 pass=-0.1".toList =
      .ok (some { expected := 10, actual := 9, deficit := none, ratioVal := none,
                  jamState := 0, hardPct := 0, softPct := 0, passVal := 0 }) := by
  refine ⟨findField_chars, findField_win_exp_none_skip, findField_win_sns_none_skip,
    ?_, ?_, ?_⟩ <;> with_unfolding_all rfl

/-- C10 witness: a matched capture is all class characters, a line with
no matchable win_exp field is skipped, and a line whose win_sns value is
minus-signed is skipped. -/
theorem C10_unsigned_fields_witness :
    ("5".toList ≠ [] ∧ "5".toList.all isDigitDot = true) ∧
    parse_flow_line "x Flow: nothing".toList = .ok none ∧
    parse_flow_line "Flow: win_exp=1 win_sns=-2".toList = .ok none :=
  ⟨C10_unsigned_fields.1 "win_exp=".toList isDigitDot "win_exp=5".toList "5".toList
      (by with_unfolding_all rfl),
    C10_unsigned_fields.2.1 "x Flow: nothing".toList (by with_unfolding_all rfl),
    C10_unsigned_fields.2.2.1 "Flow: win_exp=1 win_sns=-2".toList
      (by with_unfolding_all rfl)
      (by
        rw [show getFloatField "win_exp=".toList "Flow: win_exp=1 win_sns=-2".toList =
            Except.ok (some 1) from by with_unfolding_all rfl]
        intro hco
        exact Except.noConfusion hco)⟩

/-- C7 counterexample: a line holding the Flow marker and valid win_exp
and win_sns numeric fields on which parse_flow_line nevertheless emits no
record — the malformed optional field deficit=1.2.3 raises a float()
ValueError instead.  The claimed iff fails at this input. -/
theorem C7_flow_line_counterexample :
    parse_flow_line "1000000000 Flow: win_exp=1 win_sns=2 deficit=1.2.3".toList =
      .error () ∧
    containsSub "Flow:".toList
      "1000000000 Flow: win_exp=1 win_sns=2 deficit=1.2.3".toList = true ∧
    getFloatField "win_exp=".toList
      "1000000000 Flow: win_exp=1 win_sns=2 deficit=1.2.3".toList = .ok (some 1) ∧
    getFloatField "win_sns=".toList
      "1000000000 Flow: win_exp=1 win_sns=2 deficit=1.2.3".toList = .ok (some 2) := by
  refine ⟨?_, ?_, ?_, ?_⟩ <;> with_unfolding_all rfl

/-- C7 (amended): a record is emitted iff the line holds the Flow marker,
valid win_exp and win_sns numeric fields, and every present optional
float field parses (a matched but malformed field raises instead); the
documented example line yields exactly the claimed record, and a Flow
line missing win_exp contributes zero rows. -/
theorem C7_flow_line_amended :
    (∀ line : List Char,
      (∃ f, parse_flow_line line = .ok (some f)) ↔
        (containsSub "Flow:".toList line = true ∧
         (∃ v, getFloatField "win_exp=".toList line = .ok (some v)) ∧
         (∃ v, getFloatField "win_sns=".toList line = .ok (some v)) ∧
         getFloatField "deficit=".toList line ≠ .error () ∧
         getFloatField "ratio=".toList line ≠ .error () ∧
         getFloatField "hard=".toList line ≠ .error () ∧
         getFloatField "soft=".toList line ≠ .error () ∧
         getFloatField "pass=".toList line ≠ .error ())) ∧
    extractRows 0
        ["1764214927 Flow: win_exp=10.00 win_sns=9.50 deficit=0.50 ratio=0.950 jam=0 hard=0.0 soft=5.0 pass=0.950".toList] =
      .ok [⟨1764214927, 10, 19/2, 1/2, 19/20, 0, 5, 0, 13⟩] ∧
    parse_flow_line "noexp Flow: win_sns=1".toList = .ok none := by
  refine ⟨?_, by with_unfolding_all rfl, by with_unfolding_all rfl⟩
  intro line
  rw [parse_flow_line]
  by_cases hF : containsSub "Flow:".toList line = true
  · have hF' : containsSub ['F', 'l', 'o', 'w', ':'] line = true := hF
    rw [if_pos hF]
    cases hexp : getFloatField "win_exp=".toList line with
    | error e => cases e; simp [hexp, hF']
    | ok expOpt =>
      cases expOpt with
      | none => simp [hexp, hF']
      | some expected =>
        cases hsns : getFloatField "win_sns=".toList line with
        | error e => cases e; simp [hexp, hsns, hF']
        | ok snsOpt =>
          cases snsOpt with
          | none => simp [hexp, hsns, hF']
          | some actual =>
            cases hdef : getFloatField "deficit=".toList line with
            | error e => cases e; simp [hexp, hsns, hdef, hF']
            | ok defOpt =>
              cases hrat : getFloatField "ratio=".toList line with
              | error e => cases e; simp [hexp, hsns, hdef, hrat, hF']
              | ok ratOpt =>
                cases hhard : getFloatField "hard=".toList line with
                | error e => cases e; simp [hexp, hsns, hdef, hrat, hhard, hF']
                | ok hardOpt =>
                  cases hsoft : getFloatField "soft=".toList line with
                  | error e => cases e; simp [hexp, hsns, hdef, hrat, hhard, hsoft, hF']
                  | ok softOpt =>
                    cases hpass : getFloatField "pass=".toList line with
                    | error e =>
                      cases e
                      simp [hexp, hsns, hdef, hrat, hhard, hsoft, hpass, hF']
                    | ok passOpt =>
                      simp [hexp, hsns, hdef, hrat, hhard, hsoft, hpass, hF']
  · have hF' : ¬ containsSub ['F', 'l', 'o', 'w', ':'] line = true := hF
    rw [if_neg hF]
    simp [hF']

/-- C8: for every line that parses to a record, pass_ratio is the pass=
value when present, else the ratio= value when present, else 0. -/
theorem C8_pass_fallback (line : List Char) (f : FlowData)
    (h : parse_flow_line line = .ok (some f)) :
    f.passVal =
      match getFloatField "pass=".toList line, getFloatField "ratio=".toList line with
      | .ok (some v), _ => v
      | .ok none, .ok (some r) => r
      | _, _ => 0 := by
  rw [parse_flow_line] at h
  by_cases hF : containsSub "Flow:".toList line = true
  · rw [if_pos hF] at h
    cases hexp : getFloatField "win_exp=".toList line with
    | error e => rw [hexp] at h; cases h
    | ok expOpt =>
      rw [hexp] at h
      cases expOpt with
      | none => cases h
      | some expected =>
        cases hsns : getFloatField "win_sns=".toList line with
        | error e => rw [hsns] at h; cases h
        | ok snsOpt =>
          rw [hsns] at h
          cases snsOpt with
          | none => cases h
          | some actual =>
            cases hdef : getFloatField "deficit=".toList line with
            | error e => rw [hdef] at h; cases h
            | ok defOpt =>
              rw [hdef] at h
              cases hrat : getFloatField "ratio=".toList line with
              | error e => rw [hrat] at h; cases h
              | ok ratOpt =>
                rw [hrat] at h
                cases hhard : getFloatField "hard=".toList line with
                | error e => rw [hhard] at h; cases h
                | ok hardOpt =>
                  rw [hhard] at h
                  cases hsoft : getFloatField "soft=".toList line with
                  | error e => rw [hsoft] at h; cases h
                  | ok softOpt =>
                    rw [hsoft] at h
                    cases hpass : getFloatField "pass=".toList line with
                    | error e => rw [hpass] at h; cases h
                    | ok passOpt =>
                      rw [hpass] at h
                      have hf : f =
                          { expected := expected, actual := actual,
                            deficit := defOpt, ratioVal := ratOpt,
                            jamState := jamStateOf line,
                            hardPct := hardOpt.getD 0, softPct := softOpt.getD 0,
                            passVal := passOpt.getD (ratOpt.getD 0) } := by
                        injection h with h1
                        injection h1 with h2
                        exact h2.symm
                      rw [hf]
                      cases passOpt <;> cases ratOpt <;> rfl
  · rw [if_neg hF] at h
    cases h

/-- C8 witness: a line with pass= absent and ratio= present falls back to
the ratio value. -/
theorem C8_pass_fallback_witness :
    ({ expected := 1, actual := 2, deficit := none, ratioVal := some (1/2),
       jamState := 0, hardPct := 0, softPct := 0, passVal := 1/2 } : FlowData).passVal =
      match getFloatField "pass=".toList "Flow: win_exp=1 win_sns=2 ratio=0.5".toList,
          getFloatField "ratio=".toList "Flow: win_exp=1 win_sns=2 ratio=0.5".toList with
      | .ok (some v), _ => v
      | .ok none, .ok (some r) => r
      | _, _ => 0 :=
  C8_pass_fallback "Flow: win_exp=1 win_sns=2 ratio=0.5".toList
    { expected := 1, actual := 2, deficit := none, ratioVal := some (1/2),
      jamState := 0, hardPct := 0, softPct := 0, passVal := 1/2 }
    (by with_unfolding_all rfl)

/-! ## Status frames and replay: tools/gcode_flow_sim.py,
build_status_payload and stream_samples -/

/-- Python round() to the nearest integer, half to even. -/
def pyRound (q : ℚ) : ℤ :=
  if q - q.floor < 1/2 then q.floor
  else if 1/2 < q - q.floor then q.floor + 1
  else if q.floor % 2 = 0 then q.floor else q.floor + 1

/-- Python round(x, 6). -/
def round6 (q : ℚ) : ℚ := (pyRound (q * 1000000) : ℚ) / 1000000

/-- The fields of the JSON status frame sent by the simulator. -/
structure StatusFrame where
  topic : String
  currentStatus : List ℤ
  printStatus : ℤ
  currentLayer : ℤ
  totalLayer : ℤ
  progress : ℤ
  currentTicks : ℤ
  totalTicks : ℤ
  printSpeedPct : ℤ
  currentExtrusion : ℚ
  totalExtrusion : ℚ
  mainboardID : String
deriving DecidableEq

/-- build_status_payload: the frame synthesized for the sample at the
given index out of count samples. -/
def build_status_payload (delta total : ℚ) (index count : ℤ) : StatusFrame :=
  let progress : ℤ := if count ≤ 0 then 0 else min 100 (max 0 ((index * 100).fdiv count))
  let current_ticks : ℤ := if count ≤ 0 then 0 else min index count
  let total_ticks : ℤ := if count ≤ 0 then 0 else count
  { topic := "status/simulator"
    currentStatus := [1]
    printStatus := 13
    currentLayer := 0
    totalLayer := 0
    progress := progress
    currentTicks := current_ticks
    totalTicks := total_ticks
    printSpeedPct := 100
    currentExtrusion := round6 delta
    totalExtrusion := round6 total
    mainboardID := "SIMULATOR" }

/-- C3 counterexample: a single-sample replay (count = 1, last index 0)
carries Progress 0, not the claimed 100. -/
theorem C3_last_progress_counterexample :
    (build_status_payload 3 3 0 1).progress = 0 ∧
    (build_status_payload 3 3 0 1).progress ≠ 100 := by
  have h : (build_status_payload 3 3 0 1).progress = 0 := by with_unfolding_all rfl
  refine ⟨h, ?_⟩
  rw [h]
  decide

/-- C3 (amended): for count > 0, the last sample's Progress is the floor
of (count-1)*100/count, which is always strictly below 100. -/
theorem C3_last_progress_amended (d t : ℚ) (count : ℤ) (hc : 0 < count) :
    (build_status_payload d t (count - 1) count).progress =
      ((count - 1) * 100).fdiv count ∧
    (build_status_payload d t (count - 1) count).progress < 100 := by
  obtain ⟨n, rfl⟩ : ∃ n : ℕ, count = (n : ℤ) :=
    ⟨count.toNat, (Int.toNat_of_nonneg hc.le).symm⟩
  have hn : 0 < n := by exact_mod_cast hc
  have hprog : (build_status_payload d t ((n : ℤ) - 1) n).progress =
      if (n : ℤ) ≤ 0 then 0 else min 100 (max 0 ((((n : ℤ) - 1) * 100).fdiv n)) := rfl
  have hne : ¬ ((n : ℤ) ≤ 0) := not_le.mpr hc
  have hcast : ((n : ℤ) - 1) * 100 = (((n - 1) * 100 : ℕ) : ℤ) := by
    push_cast [Nat.cast_sub hn]
    ring
  have hfd : (((n : ℤ) - 1) * 100).fdiv (n : ℤ) = (((n - 1) * 100 / n : ℕ) : ℤ) := by
    rw [hcast]
    exact (Int.ofNat_fdiv _ _).symm
  have hlt : (n - 1) * 100 / n < 100 := by
    rw [Nat.div_lt_iff_lt_mul hn]
    omega
  have h0 : (0 : ℤ) ≤ (((n - 1) * 100 / n : ℕ) : ℤ) := Int.ofNat_nonneg _
  constructor
  · rw [hprog, if_neg hne, hfd]
    have h100 : (((n - 1) * 100 / n : ℕ) : ℤ) ≤ 100 := by exact_mod_cast hlt.le
    rw [max_eq_right h0, min_eq_right h100]
  · rw [hprog, if_neg hne, hfd]
    have h100 : (((n - 1) * 100 / n : ℕ) : ℤ) < 100 := by exact_mod_cast hlt
    rw [max_eq_right h0]
    exact lt_of_le_of_lt (min_le_right _ _) h100

/-- C3 witness: with four samples the last frame carries Progress 75. -/
theorem C3_last_progress_amended_witness :
    ((build_status_payload 1 2 ((4 : ℤ) - 1) 4).progress =
      (((4 : ℤ) - 1) * 100).fdiv 4 ∧
    (build_status_payload 1 2 ((4 : ℤ) - 1) 4).progress < 100) :=
  C3_last_progress_amended 1 2 4 (by norm_num)

/-- An event of the replay loop: a frame sent, or an asyncio.sleep for the
given number of seconds. -/
inductive SimEvent where
  | send : StatusFrame → SimEvent
  | pause : ℚ → SimEvent
deriving DecidableEq

/-- One iteration of stream_samples over the enumerated sample list: send
the frame for each index, then sleep for the gap to the next sample (for
the last sample: the first timestamp when repeating, else 0), clamped at
zero and scaled by the speed floor. -/
def passEvents (samples : List (ℤ × ℚ × ℚ)) (rep : Bool) (speed : ℚ) : List SimEvent :=
  (List.range samples.length).flatMap (fun index =>
    let s := samples.getD index (0, 0, 0)
    let delay_ms : ℤ :=
      if index + 1 < samples.length then (samples.getD (index + 1) (0, 0, 0)).1 - s.1
      else if rep then (samples.getD 0 (0, 0, 0)).1 else 0
    [SimEvent.send (build_status_payload s.2.1 s.2.2 (index : ℤ) (samples.length : ℤ)),
     SimEvent.pause (max ((delay_ms : ℚ)) 0 / 1000 / max speed (1/1000))])

/-- stream_samples after a given number of iterations of its while loop:
nothing for an empty sample list, otherwise one passEvents block per
iteration.  With repeat = False the loop breaks after one iteration, so
the full trace is the loops = 1 instance. -/
def stream_samples_events (samples : List (ℤ × ℚ × ℚ)) (rep : Bool) (speed : ℚ)
    (loops : ℕ) : List SimEvent :=
  if samples = [] then []
  else (List.range loops).flatMap (fun _ => passEvents samples rep speed)

/-- The frames sent in a trace, in order. -/
def sendsOf (evts : List SimEvent) : List StatusFrame :=
  evts.filterMap (fun e =>
    match e with
    | .send f => some f
    | .pause _ => none)

theorem sendsOf_append (a b : List SimEvent) :
    sendsOf (a ++ b) = sendsOf a ++ sendsOf b :=
  List.filterMap_append a b _

theorem sendsOf_bind_pair {α : Type} (l : List α) (f : α → List SimEvent)
    (g : α → StatusFrame) (hf : ∀ a, sendsOf (f a) = [g a]) :
    sendsOf (l.flatMap f) = l.map g := by
  induction l with
  | nil => rfl
  | cons x l ih =>
    rw [List.flatMap_cons, sendsOf_append, hf, ih, List.map_cons]
    rfl

/-- The frames of one pass are exactly the per-index payloads, in index
order. -/
theorem passEvents_sends (samples : List (ℤ × ℚ × ℚ)) (rep : Bool) (speed : ℚ) :
    sendsOf (passEvents samples rep speed) =
      (List.range samples.length).map (fun index =>
        build_status_payload (samples.getD index (0, 0, 0)).2.1
          (samples.getD index (0, 0, 0)).2.2 (index : ℤ) (samples.length : ℤ)) := by
  apply sendsOf_bind_pair
  intro a
  rfl

/-- C9: for a non-empty sample list, the repeat = False replay sends
exactly one frame per sample, in sequence order, and the trace is a
finite list (the stream then closes); with repeat = True each further
loop iteration appends one more identical pass (same frames, same
per-loop spacing), so after k loops exactly k * len(samples) frames have
been sent. -/
theorem C9_replay_frames (samples : List (ℤ × ℚ × ℚ)) (speed : ℚ)
    (h : samples ≠ []) :
    sendsOf (stream_samples_events samples false speed 1) =
      (List.range samples.length).map (fun index =>
        build_status_payload (samples.getD index (0, 0, 0)).2.1
          (samples.getD index (0, 0, 0)).2.2 (index : ℤ) (samples.length : ℤ)) ∧
    (sendsOf (stream_samples_events samples false speed 1)).length = samples.length ∧
    (∀ k, stream_samples_events samples true speed (k + 1) =
        stream_samples_events samples true speed k ++ passEvents samples true speed) ∧
    (∀ k, (sendsOf (stream_samples_events samples true speed k)).length =
        k * samples.length) := by
  have hsingle : ∀ (rep : Bool),
      (List.range 1).flatMap (fun _ => passEvents samples rep speed) =
        passEvents samples rep speed := by
    intro rep
    rw [List.range_succ, List.range_zero, List.nil_append, List.flatMap_cons,
      List.flatMap_nil, List.append_nil]
  have hone : stream_samples_events samples false speed 1 =
      passEvents samples false speed := by
    rw [stream_samples_events, if_neg h]
    exact hsingle false
  have hpasslen : ∀ (rep : Bool),
      (sendsOf (passEvents samples rep speed)).length = samples.length := by
    intro rep
    rw [passEvents_sends, List.length_map, List.length_range]
  refine ⟨by rw [hone, passEvents_sends], ?_, ?_, ?_⟩
  · rw [hone]
    exact hpasslen false
  · intro k
    rw [stream_samples_events, stream_samples_events, if_neg h, if_neg h,
      List.range_succ, List.flatMap_append, List.flatMap_cons, List.flatMap_nil,
      List.append_nil]
  · intro k
    induction k with
    | zero =>
      rw [stream_samples_events, if_neg h, List.range_zero, List.flatMap_nil]
      simp [sendsOf]
    | succ k ih =>
      rw [stream_samples_events, if_neg h, List.range_succ, List.flatMap_append,
        sendsOf_append, List.length_append, List.flatMap_cons, List.flatMap_nil,
        List.append_nil]
      rw [stream_samples_events, if_neg h] at ih
      rw [ih, hpasslen true]
      ring

/-- C9 witness: one sample, one frame per pass. -/
theorem C9_replay_frames_witness :
    (sendsOf (stream_samples_events [((0 : ℤ), (3 : ℚ), (3 : ℚ))] false 1 1)).length =
      [((0 : ℤ), (3 : ℚ), (3 : ℚ))].length :=
  (C9_replay_frames [(0, 3, 3)] 1 (List.cons_ne_nil _ _)).2.1

end OFS
